import Mathlib

/-!
Verification of the algorithm step-recording and playback engine of the
array-sorting visualizer (src/array.js, class ArrayVisualizer).

The live array is modelled as a `List Int`.  JavaScript array indexing is
modelled faithfully: reading an out-of-range index yields the default value 0
(standing for `undefined`), and writing at an out-of-range index extends the
array, padding the gap with the default value, exactly as a JS element
assignment does.  All in-range behaviour agrees with ordinary list update.
-/

namespace ArrayViz

/-- A recorded animation step, as pushed onto `animationQueue` by the three
step generators of src/array.js: `compare` and `swap` carry two indices,
`shift` carries source and destination indices, `ins` carries a target index
and the value to write (the `insert` step type of the source). -/
inductive Step where
  | compare (i j : Nat)
  | swap (i j : Nat)
  | shift (src dst : Nat)
  | ins (idx : Nat) (val : Int)
deriving DecidableEq, Repr

/-- JS array read `a[i]`: the element at `i`, or 0 (for `undefined`) when out
of range. -/
def jsRead (a : List Int) (i : Nat) : Int := a.getD i 0

/-- JS array write `a[i] = v`: in range it updates the slot; past the end it
extends the array, filling the gap with the default value. -/
def jsWrite : List Int → Nat → Int → List Int
  | [], 0, v => [v]
  | [], i + 1, v => 0 :: jsWrite [] i v
  | _ :: xs, 0, v => v :: xs
  | x :: xs, i + 1, v => x :: jsWrite xs i v

/-- The JS destructuring swap `[a[i], a[j]] = [a[j], a[i]]`: both reads happen
before both writes, the write at `j` second. -/
def swapL (a : List Int) (i j : Nat) : List Int :=
  jsWrite (jsWrite a i (jsRead a j)) j (jsRead a i)

/-- Mutation effect of one step on the live array, as `stepForward` applies
it: `compare` mutates nothing, `swap` exchanges the two indexed values,
`shift` copies the source slot into the destination slot, `ins` writes the
carried value at the carried index. -/
def applyStepJS (a : List Int) : Step → List Int
  | .compare _ _ => a
  | .swap i j => swapL a i j
  | .shift s d => jsWrite a d (jsRead a s)
  | .ins idx v => jsWrite a idx v

/-- Replay a list of steps in order against an array, using `stepForward`'s
mutation rules. -/
def replaySteps (steps : List Step) (a : List Int) : List Int :=
  steps.foldl applyStepJS a

/-- Inner loop of `generateBubbleSortSteps`: starting at position `j` with `k`
iterations remaining, record a compare for each adjacent pair and a swap (also
performed on the working copy) whenever the left element is strictly greater.
Returns the recorded steps and the mutated working copy. -/
def bubbleInner : List Int → Nat → Nat → List Step × List Int
  | a, _, 0 => ([], a)
  | a, j, k + 1 =>
    if jsRead a j > jsRead a (j + 1) then
      let p := bubbleInner (swapL a j (j + 1)) (j + 1) k
      (Step.compare j (j + 1) :: Step.swap j (j + 1) :: p.1, p.2)
    else
      let p := bubbleInner a (j + 1) k
      (Step.compare j (j + 1) :: p.1, p.2)

/-- Outer loop of `generateBubbleSortSteps`: passes of shrinking length
`m, m-1, ..., 1` over the working copy. -/
def bubbleOuter : List Int → Nat → List Step × List Int
  | a, 0 => ([], a)
  | a, m + 1 =>
    let p := bubbleInner a 0 (m + 1)
    let q := bubbleOuter p.2 m
    (p.1 ++ q.1, q.2)

/-- `generateBubbleSortSteps(arr)`: the full recorded step list for bubble
sort on (a working copy of) `a`. -/
def generateBubbleSortSteps (a : List Int) : List Step :=
  (bubbleOuter a (a.length - 1)).1

/-- Inner scan of `generateSelectionSortSteps`: from position `j` with current
minimum index `m` and `k` iterations remaining, record one compare per scanned
element and track the index of the strictly smallest element. -/
def selInner : List Int → Nat → Nat → Nat → List Step × Nat
  | _, _, m, 0 => ([], m)
  | a, j, m, k + 1 =>
    let m' := if jsRead a j < jsRead a m then j else m
    let p := selInner a (j + 1) m' k
    (Step.compare j m :: p.1, p.2)

/-- Outer loop of `generateSelectionSortSteps`: at index `i` with `r`
iterations remaining, scan for the minimum of the suffix and record/perform a
swap only when a strictly smaller element was found. -/
def selOuter : List Int → Nat → Nat → List Step × List Int
  | a, _, 0 => ([], a)
  | a, i, r + 1 =>
    let p := selInner a (i + 1) i (r + 1)
    if p.2 ≠ i then
      let q := selOuter (swapL a i p.2) (i + 1) r
      (p.1 ++ Step.swap i p.2 :: q.1, q.2)
    else
      let q := selOuter a (i + 1) r
      (p.1 ++ q.1, q.2)

/-- `generateSelectionSortSteps(arr)`: the full recorded step list for
selection sort on (a working copy of) `a`. -/
def generateSelectionSortSteps (a : List Int) : List Step :=
  (selOuter a 0 (a.length - 1)).1

/-- While loop of `generateInsertionSortSteps` for key insertion.  The last
argument is `j + 1` for the source's loop variable `j` (so 0 encodes
`j = -1`).  While `arr[j] > key`: record a shift, copy `arr[j]` into
`arr[j+1]` on the working copy, decrement `j`, and record a compare against
the new `arr[j]` when `j` is still in range.  Returns the recorded steps, the
mutated working copy, and the final `j + 1` (the insertion position). -/
def insInner : List Int → Int → Nat → Nat → List Step × List Int × Nat
  | a, _, _, 0 => ([], a, 0)
  | a, key, i, m + 1 =>
    if jsRead a m > key then
      let a' := jsWrite a (m + 1) (jsRead a m)
      let p := insInner a' key i m
      (Step.shift m (m + 1) ::
        ((if 1 ≤ m then [Step.compare i (m - 1)] else []) ++ p.1), p.2.1, p.2.2)
    else
      ([], a, m + 1)

/-- Outer loop of `generateInsertionSortSteps`: at index `i` with `r`
iterations remaining, record the unconditional compare of the key with its
left neighbour, run the shifting loop, then record/perform the terminal
insert of the key. -/
def insOuter : List Int → Nat → Nat → List Step × List Int
  | a, _, 0 => ([], a)
  | a, i, r + 1 =>
    let key := jsRead a i
    let p := insInner a key i i
    let q := insOuter (jsWrite p.2.1 p.2.2 key) (i + 1) r
    (Step.compare i (i - 1) :: (p.1 ++ (Step.ins p.2.2 key :: q.1)), q.2)

/-- `generateInsertionSortSteps(arr)`: the full recorded step list for
insertion sort on (a working copy of) `a`. -/
def generateInsertionSortSteps (a : List Int) : List Step :=
  (insOuter a 1 (a.length - 1)).1

/-- The three algorithm selectors offered by the sort dropdown of the array
visualizer. -/
inductive SortType where
  | bubbleSort
  | selectionSort
  | insertionSort
deriving DecidableEq, Repr

/-- The step list `prepareSort` installs into `animationQueue` for a given
selector, generated from a copy of the live array. -/
def sortSteps (t : SortType) (a : List Int) : List Step :=
  match t with
  | .bubbleSort => generateBubbleSortSteps a
  | .selectionSort => generateSelectionSortSteps a
  | .insertionSort => generateInsertionSortSteps a

/-- Reference in-place bubble sort, one pass: the source algorithm's inner
loop without step recording. -/
def bubblePassRef : List Int → Nat → Nat → List Int
  | a, _, 0 => a
  | a, j, k + 1 =>
    if jsRead a j > jsRead a (j + 1) then bubblePassRef (swapL a j (j + 1)) (j + 1) k
    else bubblePassRef a (j + 1) k

/-- Reference in-place bubble sort, outer loop. -/
def bubbleSortRefAux : List Int → Nat → List Int
  | a, 0 => a
  | a, m + 1 => bubbleSortRefAux (bubblePassRef a 0 (m + 1)) m

/-- Reference in-place bubble sort. -/
def bubbleSortRef (a : List Int) : List Int := bubbleSortRefAux a (a.length - 1)

/-- Reference selection sort: index of the running minimum over a scan. -/
def selMinIdxRef : List Int → Nat → Nat → Nat → Nat
  | _, _, m, 0 => m
  | a, j, m, k + 1 => selMinIdxRef a (j + 1) (if jsRead a j < jsRead a m then j else m) k

/-- Reference in-place selection sort, outer loop. -/
def selectionSortRefAux : List Int → Nat → Nat → List Int
  | a, _, 0 => a
  | a, i, r + 1 =>
    let m := selMinIdxRef a (i + 1) i (r + 1)
    selectionSortRefAux (if m ≠ i then swapL a i m else a) (i + 1) r

/-- Reference in-place selection sort. -/
def selectionSortRef (a : List Int) : List Int := selectionSortRefAux a 0 (a.length - 1)

/-- Reference insertion sort: shift strictly greater elements right, return
the mutated array and the insertion position. -/
def insPlaceRef : List Int → Int → Nat → List Int × Nat
  | a, _, 0 => (a, 0)
  | a, key, m + 1 =>
    if jsRead a m > key then insPlaceRef (jsWrite a (m + 1) (jsRead a m)) key m
    else (a, m + 1)

/-- Reference in-place insertion sort, outer loop. -/
def insertionSortRefAux : List Int → Nat → Nat → List Int
  | a, _, 0 => a
  | a, i, r + 1 =>
    let key := jsRead a i
    let p := insPlaceRef a key i
    insertionSortRefAux (jsWrite p.1 p.2 key) (i + 1) r

/-- Reference in-place insertion sort. -/
def insertionSortRef (a : List Int) : List Int := insertionSortRefAux a 1 (a.length - 1)

/-- The reference in-place sort selected by an algorithm selector. -/
def sortRef (t : SortType) (a : List Int) : List Int :=
  match t with
  | .bubbleSort => bubbleSortRef a
  | .selectionSort => selectionSortRef a
  | .insertionSort => insertionSortRef a

example : generateBubbleSortSteps [5, 3, 4, 1] =
    [Step.compare 0 1, Step.swap 0 1, Step.compare 1 2, Step.swap 1 2,
     Step.compare 2 3, Step.swap 2 3, Step.compare 0 1, Step.compare 1 2,
     Step.swap 1 2, Step.compare 0 1, Step.swap 0 1] := by decide

example : replaySteps (generateBubbleSortSteps [5, 3, 4, 1]) [5, 3, 4, 1] = [1, 3, 4, 5] := by
  decide

example : replaySteps (generateSelectionSortSteps [5, 3, 4, 1]) [5, 3, 4, 1] = [1, 3, 4, 5] := by
  decide

example : replaySteps (generateInsertionSortSteps [5, 3, 4, 1]) [5, 3, 4, 1] = [1, 3, 4, 5] := by
  decide

example : bubbleSortRef [5, 3, 4, 1] = [1, 3, 4, 5] := by decide

example : selectionSortRef [5, 3, 4, 1] = [1, 3, 4, 5] := by decide

example : insertionSortRef [5, 3, 4, 1] = [1, 3, 4, 5] := by decide

example : generateInsertionSortSteps [2, 1] =
    [Step.compare 1 0, Step.shift 0 1, Step.ins 0 1] := by decide

/-- The mutable state of an `ArrayVisualizer` instance: the live array, the
optional prefix-sum array, the animation queue, the playback cursor and the
busy flag. -/
structure VizState where
  array : List Int
  prefixSumArray : Option (List Int)
  animationQueue : List Step
  currentStep : Nat
  isPlaying : Bool
deriving DecidableEq, Repr

/-- The constructor state: empty array, no prefix sums, empty queue, cursor 0,
not playing. -/
def initState : VizState := ⟨[], none, [], 0, false⟩

/-- `create(size)`: rejected while playing or when the requested size is
outside 1..15; otherwise installs a fresh array of `size` random values
(the random draws are supplied by the oracle `rand`) and resets the
prefix-sum array. -/
def createOp (s : VizState) (size : Int) (rand : Nat → Int) : VizState :=
  if s.isPlaying then s
  else if size ≤ 0 ∨ 15 < size then s
  else { s with array := (List.range size.toNat).map rand, prefixSumArray := none }

/-- `insert(value, index)`: rejected while playing, for an out-of-range
index, or when the array already holds 15 elements; otherwise splices the
value in at the index and resets the prefix-sum array.  The animation queue
is left untouched by the source. -/
def insertOp (s : VizState) (v : Int) (idx : Int) : VizState :=
  if s.isPlaying ∨ idx < 0 ∨ (s.array.length : Int) < idx ∨ 15 ≤ s.array.length then s
  else { s with array := s.array.insertIdx idx.toNat v, prefixSumArray := none }

/-- `delete(index)`: rejected while playing or for an out-of-range index;
otherwise removes the element and resets the prefix-sum array.  The animation
queue is left untouched by the source. -/
def deleteOp (s : VizState) (idx : Int) : VizState :=
  if s.isPlaying ∨ idx < 0 ∨ (s.array.length : Int) ≤ idx then s
  else { s with array := s.array.eraseIdx idx.toNat, prefixSumArray := none }

/-- Running-sum loop of `generatePrefixSum`: `currentSum` starts at `c` and
each element is added in turn, the partial sums being collected in order. -/
def prefixAccum (c : Int) : List Int → List Int
  | [] => []
  | x :: xs => (c + x) :: prefixAccum (c + x) xs

/-- The prefix-sum array computed by `generatePrefixSum` for a given live
array. -/
def prefixSums (a : List Int) : List Int := prefixAccum 0 a

/-- `generatePrefixSum()`: rejected while playing or on an empty array;
otherwise stores the running sums.  The busy flag is set for the duration of
the animation and released at the end, so its net effect on the flag is
nil. -/
def generatePrefixSumOp (s : VizState) : VizState :=
  if s.isPlaying ∨ s.array.length = 0 then s
  else { s with prefixSumArray := some (prefixSums s.array) }

/-- `getRangeSum(start, end)`: returns `none` when rejected (busy, no
prefix-sum array, or invalid bounds), otherwise the difference of prefix sums
the source displays.  It never mutates the state. -/
def getRangeSumOp (s : VizState) (lo hi : Int) : Option Int :=
  if s.isPlaying then none
  else
    match s.prefixSumArray with
    | none => none
    | some ps =>
      if lo < 0 ∨ (s.array.length : Int) ≤ hi ∨ hi < lo then none
      else some (jsRead ps hi.toNat - (if 0 < lo then jsRead ps (lo.toNat - 1) else 0))

/-- `prepareSort(sortType)`: rejected while playing or when the live array
has at most one element; otherwise resets the prefix-sum array, installs the
freshly generated step list (from a copy of the live array) and resets the
cursor to 0. -/
def prepareSortOp (s : VizState) (t : SortType) : VizState :=
  if s.isPlaying ∨ s.array.length ≤ 1 then s
  else { s with prefixSumArray := none, animationQueue := sortSteps t s.array, currentStep := 0 }

/-- `stepForward()`: with the cursor past the end of the queue it only clears
the busy flag and reports completion; otherwise it applies the step at the
cursor to the live array and increments the cursor by one. -/
def stepForwardPure (s : VizState) : VizState :=
  if s.animationQueue.length ≤ s.currentStep then { s with isPlaying := false }
  else
    { s with
      array := applyStepJS s.array (s.animationQueue.getD s.currentStep (Step.compare 0 0)),
      currentStep := s.currentStep + 1 }

/-- `k` successive `stepForward()` calls. -/
def stepN (s : VizState) : Nat → VizState
  | 0 => s
  | k + 1 => stepN (stepForwardPure s) k

/-- `play()`: returns at once on an empty queue; otherwise raises the busy
flag and drains the queue step by step (in the single-threaded model nothing
clears the flag mid-loop, so the loop runs until the cursor reaches the queue
length), then clears the flag on completion. -/
def playPure (s : VizState) : VizState :=
  if s.animationQueue.length = 0 then s
  else
    let s1 := stepN { s with isPlaying := true } (s.animationQueue.length - s.currentStep)
    if s1.isPlaying then { s1 with isPlaying := false } else s1

/-- `pause()`: clears the busy flag. -/
def pauseOp (s : VizState) : VizState := { s with isPlaying := false }

/-- The state reached when `play()` is interrupted by `pause()` at the
suspension point after `k` steps have been applied: the loop observes the
cleared flag, exits, and skips its completion branch. -/
def pausedMidPlay (s : VizState) (k : Nat) : VizState :=
  { stepN { s with isPlaying := true } k with isPlaying := false }

/-- One public operation on the visualizer, as dispatched by the UI event
listeners. -/
inductive Op where
  | create (size : Int) (rand : Nat → Int)
  | insert (v : Int) (idx : Int)
  | del (idx : Int)
  | prepare (t : SortType)
  | genPrefixSum
  | rangeSum (lo hi : Int)
  | step
  | playAll
  | pauseBtn

/-- State transition of one public operation (`getRangeSum` reads but never
writes the state). -/
def applyOp (s : VizState) : Op → VizState
  | .create sz r => createOp s sz r
  | .insert v i => insertOp s v i
  | .del i => deleteOp s i
  | .prepare t => prepareSortOp s t
  | .genPrefixSum => generatePrefixSumOp s
  | .rangeSum _ _ => s
  | .step => stepForwardPure s
  | .playAll => playPure s
  | .pauseBtn => pauseOp s

/-- Run a sequence of public operations from a state. -/
def runOps (s : VizState) (ops : List Op) : VizState := ops.foldl applyOp s

example :
    (insertOp (prepareSortOp ⟨[2, 1], none, [], 0, false⟩ SortType.bubbleSort) 9 0).animationQueue
      = [Step.compare 0 1, Step.swap 0 1] := by decide

example :
    (playPure (insertOp (prepareSortOp ⟨[2, 1], none, [], 0, false⟩ SortType.bubbleSort) 9 0)).array
      = [2, 9, 1] := by decide

example :
    (runOps initState
      [Op.create 2 (fun n => if n = 0 then 2 else 1), Op.prepare SortType.bubbleSort,
       Op.del 1, Op.step, Op.step]).array = [0, 2] := by decide

example :
    (runOps initState
      [Op.create 2 (fun n => if n = 0 then 2 else 1), Op.prepare SortType.bubbleSort,
       Op.genPrefixSum, Op.step, Op.step]).prefixSumArray = some [2, 3] := by decide

example :
    (runOps initState
      [Op.create 2 (fun n => if n = 0 then 2 else 1), Op.prepare SortType.bubbleSort,
       Op.genPrefixSum, Op.step, Op.step]).array = [1, 2] := by decide

@[simp] lemma jsRead_nil (j : Nat) : jsRead [] j = 0 := by simp [jsRead]

@[simp] lemma jsRead_cons_zero (x : Int) (xs : List Int) : jsRead (x :: xs) 0 = x := rfl

@[simp] lemma jsRead_cons_succ (x : Int) (xs : List Int) (j : Nat) :
    jsRead (x :: xs) (j + 1) = jsRead xs j := by
  simp [jsRead]

@[simp] lemma replaySteps_nil (a : List Int) : replaySteps [] a = a := rfl

@[simp] lemma replaySteps_cons (st : Step) (steps : List Step) (a : List Int) :
    replaySteps (st :: steps) a = replaySteps steps (applyStepJS a st) := rfl

lemma replaySteps_append (s1 s2 : List Step) (a : List Int) :
    replaySteps (s1 ++ s2) a = replaySteps s2 (replaySteps s1 a) := by
  simp [replaySteps]

lemma bubbleInner_replay (k : Nat) : ∀ (a : List Int) (j : Nat),
    replaySteps (bubbleInner a j k).1 a = (bubbleInner a j k).2 := by
  induction k with
  | zero => intro a j; rfl
  | succ k ih =>
    intro a j
    by_cases h : jsRead a j > jsRead a (j + 1) <;>
      simp [bubbleInner, h, applyStepJS, ih]

lemma bubbleInner_snd (k : Nat) : ∀ (a : List Int) (j : Nat),
    (bubbleInner a j k).2 = bubblePassRef a j k := by
  induction k with
  | zero => intro a j; rfl
  | succ k ih =>
    intro a j
    by_cases h : jsRead a j > jsRead a (j + 1) <;>
      simp [bubbleInner, bubblePassRef, h, ih]

lemma bubbleOuter_replay (m : Nat) : ∀ a : List Int,
    replaySteps (bubbleOuter a m).1 a = (bubbleOuter a m).2 := by
  induction m with
  | zero => intro a; rfl
  | succ m ih =>
    intro a
    simp [bubbleOuter, replaySteps_append, bubbleInner_replay, ih]

lemma bubbleOuter_snd (m : Nat) : ∀ a : List Int,
    (bubbleOuter a m).2 = bubbleSortRefAux a m := by
  induction m with
  | zero => intro a; rfl
  | succ m ih =>
    intro a
    simp [bubbleOuter, bubbleSortRefAux, ih, bubbleInner_snd]

lemma selInner_replay (k : Nat) : ∀ (a : List Int) (j m : Nat) (x : List Int),
    replaySteps (selInner a j m k).1 x = x := by
  induction k with
  | zero => intro a j m x; rfl
  | succ k ih =>
    intro a j m x
    simp [selInner, applyStepJS, ih]

lemma selInner_snd (k : Nat) : ∀ (a : List Int) (j m : Nat),
    (selInner a j m k).2 = selMinIdxRef a j m k := by
  induction k with
  | zero => intro a j m; rfl
  | succ k ih =>
    intro a j m
    simp [selInner, selMinIdxRef, ih]

lemma selOuter_replay (r : Nat) : ∀ (a : List Int) (i : Nat),
    replaySteps (selOuter a i r).1 a = (selOuter a i r).2 := by
  induction r with
  | zero => intro a i; rfl
  | succ r ih =>
    intro a i
    by_cases h : (selInner a (i + 1) i (r + 1)).2 ≠ i <;>
      simp [selOuter, h, replaySteps_append, selInner_replay, applyStepJS, ih]

lemma selOuter_snd (r : Nat) : ∀ (a : List Int) (i : Nat),
    (selOuter a i r).2 = selectionSortRefAux a i r := by
  induction r with
  | zero => intro a i; rfl
  | succ r ih =>
    intro a i
    have hs := selInner_snd (r + 1) a (i + 1) i
    by_cases h : selMinIdxRef a (i + 1) i (r + 1) = i <;>
      simp [selOuter, selectionSortRefAux, hs, h, ih]

lemma insInner_replay (m : Nat) : ∀ (a : List Int) (key : Int) (i : Nat),
    replaySteps (insInner a key i m).1 a = (insInner a key i m).2.1 := by
  induction m with
  | zero => intro a key i; rfl
  | succ m ih =>
    intro a key i
    by_cases h : jsRead a m > key
    · by_cases hm : 1 ≤ m <;>
        simp [insInner, h, hm, applyStepJS, replaySteps_append, ih]
    · simp [insInner, h]

lemma insInner_snd (m : Nat) : ∀ (a : List Int) (key : Int) (i : Nat),
    (insInner a key i m).2.1 = (insPlaceRef a key m).1 ∧
      (insInner a key i m).2.2 = (insPlaceRef a key m).2 := by
  induction m with
  | zero => intro a key i; exact ⟨rfl, rfl⟩
  | succ m ih =>
    intro a key i
    by_cases h : jsRead a m > key <;>
      simp [insInner, insPlaceRef, h, ih]

lemma insOuter_replay (r : Nat) : ∀ (a : List Int) (i : Nat),
    replaySteps (insOuter a i r).1 a = (insOuter a i r).2 := by
  induction r with
  | zero => intro a i; rfl
  | succ r ih =>
    intro a i
    simp [insOuter, replaySteps_append, applyStepJS, insInner_replay, ih]

lemma insOuter_snd (r : Nat) : ∀ (a : List Int) (i : Nat),
    (insOuter a i r).2 = insertionSortRefAux a i r := by
  induction r with
  | zero => intro a i; rfl
  | succ r ih =>
    intro a i
    simp [insOuter, insertionSortRefAux, (insInner_snd i a (jsRead a i) i).1,
      (insInner_snd i a (jsRead a i) i).2, ih]

/-- C1: for every input array of length at least 2 and every algorithm
selector, generating the step list from a copy of the input (as `prepareSort`
does) and replaying every step in order against a fresh copy of the input
with `stepForward`'s mutation rules yields exactly the array produced by the
reference in-place sort run directly on the input. -/
theorem replay_equivalence (t : SortType) (S : List Int) (h : 2 ≤ S.length) :
    replaySteps (sortSteps t S) S = sortRef t S := by
  cases t
  · simp [sortSteps, sortRef, generateBubbleSortSteps, bubbleSortRef,
      bubbleOuter_replay, bubbleOuter_snd]
  · simp [sortSteps, sortRef, generateSelectionSortSteps, selectionSortRef,
      selOuter_replay, selOuter_snd]
  · simp [sortSteps, sortRef, generateInsertionSortSteps, insertionSortRef,
      insOuter_replay, insOuter_snd]

/-- Witness for C1 at the concrete input [5, 3, 4, 1] with bubble sort. -/
theorem replay_equivalence_witness :
    2 ≤ ([5, 3, 4, 1] : List Int).length ∧
      replaySteps (sortSteps SortType.bubbleSort [5, 3, 4, 1]) [5, 3, 4, 1] =
        sortRef SortType.bubbleSort [5, 3, 4, 1] :=
  ⟨by decide, replay_equivalence SortType.bubbleSort [5, 3, 4, 1] (by decide)⟩

/-- C4: for the input [5, 3, 4, 1] with bubble sort, the step producer emits
exactly the expected eleven steps, and replaying them all (here: playing the
prepared run to completion) leaves the live array equal to [1, 3, 4, 5]. -/
theorem bubble_example_steps :
    generateBubbleSortSteps [5, 3, 4, 1] =
      [Step.compare 0 1, Step.swap 0 1, Step.compare 1 2, Step.swap 1 2,
       Step.compare 2 3, Step.swap 2 3, Step.compare 0 1, Step.compare 1 2,
       Step.swap 1 2, Step.compare 0 1, Step.swap 0 1] ∧
      (generateBubbleSortSteps [5, 3, 4, 1]).length = 11 ∧
      replaySteps (generateBubbleSortSteps [5, 3, 4, 1]) [5, 3, 4, 1] = [1, 3, 4, 5] ∧
      (playPure (prepareSortOp ⟨[5, 3, 4, 1], none, [], 0, false⟩ SortType.bubbleSort)).array
        = [1, 3, 4, 5] := by
  decide

/-- C7: on a live array of length 0 or 1, `prepareSort` is rejected with the
whole state unchanged, and each of the three step producers, invoked
directly, returns an empty step list. -/
theorem trivial_input_no_steps (s : VizState) (t : SortType) (h : s.array.length ≤ 1) :
    prepareSortOp s t = s ∧
      generateBubbleSortSteps s.array = [] ∧
      generateSelectionSortSteps s.array = [] ∧
      generateInsertionSortSteps s.array = [] := by
  have h0 : s.array.length - 1 = 0 := by omega
  refine ⟨by simp [prepareSortOp, h], ?_, ?_, ?_⟩
  · simp [generateBubbleSortSteps, h0, bubbleOuter]
  · simp [generateSelectionSortSteps, h0, selOuter]
  · simp [generateInsertionSortSteps, h0, insOuter]

/-- Witness for C7 at a concrete singleton-array state. -/
theorem trivial_input_no_steps_witness :
    (⟨[7], none, [], 0, false⟩ : VizState).array.length ≤ 1 ∧
      prepareSortOp ⟨[7], none, [], 0, false⟩ SortType.insertionSort
        = ⟨[7], none, [], 0, false⟩ ∧
      generateBubbleSortSteps [7] = [] ∧
      generateSelectionSortSteps [7] = [] ∧
      generateInsertionSortSteps [7] = [] :=
  ⟨by decide, trivial_input_no_steps ⟨[7], none, [], 0, false⟩ SortType.insertionSort (by decide)⟩

/-- Derived Complete configuration of the playback controller: the cursor has
reached the end of the queue and the busy flag is down. -/
def ctrlComplete (s : VizState) : Prop :=
  s.animationQueue.length ≤ s.currentStep ∧ s.isPlaying = false

/-- C6: outside Playing, a single `stepForward()` with the cursor strictly
below the queue length applies exactly the mutation of the step at the
cursor and increments the cursor by one, reaching the Complete configuration
when that step was the last; with the cursor at the queue length it is a
no-op on the live array and the cursor. -/
theorem step_once_spec (s : VizState) (hp : s.isPlaying = false) :
    (s.currentStep < s.animationQueue.length →
      (stepForwardPure s).currentStep = s.currentStep + 1 ∧
      (stepForwardPure s).array =
        applyStepJS s.array (s.animationQueue.getD s.currentStep (Step.compare 0 0)) ∧
      (s.currentStep + 1 = s.animationQueue.length → ctrlComplete (stepForwardPure s))) ∧
    (s.animationQueue.length ≤ s.currentStep →
      (stepForwardPure s).array = s.array ∧ (stepForwardPure s).currentStep = s.currentStep) := by
  constructor
  · intro hlt
    have hni : ¬ s.animationQueue.length ≤ s.currentStep := by omega
    refine ⟨by simp [stepForwardPure, hni], by simp [stepForwardPure, hni], ?_⟩
    intro hlast
    simp [ctrlComplete, stepForwardPure, hni, hp]
    omega
  · intro hge
    exact ⟨by simp [stepForwardPure, hge], by simp [stepForwardPure, hge]⟩

/-- Witness for C6 at a concrete one-step-remaining state. -/
theorem step_once_spec_witness :
    (⟨[2, 1], none, [Step.swap 0 1], 0, false⟩ : VizState).isPlaying = false ∧
      ((0 < 1 →
        (stepForwardPure ⟨[2, 1], none, [Step.swap 0 1], 0, false⟩).currentStep = 0 + 1 ∧
        (stepForwardPure ⟨[2, 1], none, [Step.swap 0 1], 0, false⟩).array =
          applyStepJS [2, 1] ([Step.swap 0 1].getD 0 (Step.compare 0 0)) ∧
        (0 + 1 = 1 → ctrlComplete (stepForwardPure ⟨[2, 1], none, [Step.swap 0 1], 0, false⟩))) ∧
      (1 ≤ (0 : Nat) →
        (stepForwardPure ⟨[2, 1], none, [Step.swap 0 1], 0, false⟩).array = [2, 1] ∧
        (stepForwardPure ⟨[2, 1], none, [Step.swap 0 1], 0, false⟩).currentStep = 0)) :=
  ⟨rfl, step_once_spec ⟨[2, 1], none, [Step.swap 0 1], 0, false⟩ rfl⟩

lemma stepN_spec (k : Nat) : ∀ s : VizState,
    s.currentStep + k ≤ s.animationQueue.length →
    (stepN s k).array = replaySteps ((s.animationQueue.drop s.currentStep).take k) s.array ∧
      (stepN s k).currentStep = s.currentStep + k ∧
      (stepN s k).animationQueue = s.animationQueue ∧
      (stepN s k).isPlaying = s.isPlaying ∧
      (stepN s k).prefixSumArray = s.prefixSumArray := by
  induction k with
  | zero => intro s h; simp [stepN]
  | succ k ih =>
    intro s h
    have hlt : s.currentStep < s.animationQueue.length := by omega
    have hni : ¬ s.animationQueue.length ≤ s.currentStep := by omega
    have hdrop : s.animationQueue.drop s.currentStep =
        s.animationQueue.getD s.currentStep (Step.compare 0 0) ::
          s.animationQueue.drop (s.currentStep + 1) := by
      rw [List.drop_eq_getElem_cons hlt, List.getD_eq_getElem _ _ hlt]
    have hstep : stepForwardPure s =
        { s with
          array := applyStepJS s.array (s.animationQueue.getD s.currentStep (Step.compare 0 0)),
          currentStep := s.currentStep + 1 } := by
      simp [stepForwardPure, hni]
    obtain ⟨ha, hc, hq, hpl, hps⟩ := ih (stepForwardPure s) (by rw [hstep]; simp; omega)
    rw [hstep] at ha hc hq hpl hps
    simp at ha hc hq hpl hps
    refine ⟨?_, by simp [stepN, hstep, hc]; omega, by simp [stepN, hstep, hq],
      by simp [stepN, hstep, hpl], by simp [stepN, hstep, hps]⟩
    simp [stepN, hstep] at ha ⊢
    rw [ha, hdrop]
    simp

/-- The live array after `play()`: all steps from the cursor on, replayed in
order. -/
lemma playPure_array (s : VizState) (h : s.currentStep ≤ s.animationQueue.length) :
    (playPure s).array = replaySteps (s.animationQueue.drop s.currentStep) s.array := by
  by_cases hq : s.animationQueue.length = 0
  · have hnil : s.animationQueue = [] := List.length_eq_zero.mp hq
    simp [playPure, hq, hnil]
  · have hfull : s.currentStep + (s.animationQueue.length - s.currentStep)
        = s.animationQueue.length := by omega
    obtain ⟨ha, hc, hqq, hpl, hps⟩ :=
      stepN_spec (s.animationQueue.length - s.currentStep)
        { s with isPlaying := true } (by simp; omega)
    have htake : (s.animationQueue.drop s.currentStep).take
        (s.animationQueue.length - s.currentStep) = s.animationQueue.drop s.currentStep := by
      have : (s.animationQueue.drop s.currentStep).length
          = s.animationQueue.length - s.currentStep := by simp
      rw [← this, List.take_length]
    simp only [playPure, hq, if_false]
    simp at ha hpl
    rw [htake] at ha
    simp [hpl, ha]

/-- C8: from a prepared, not-playing state, pausing after the first k steps
and then resuming to exhaustion yields the same final live array as playing
straight through: no step is skipped or applied twice across the pause. -/
theorem pause_resume_deterministic (s : VizState) (k : Nat) (hp : s.isPlaying = false)
    (hc : s.currentStep = 0) (hk : k ≤ s.animationQueue.length) :
    (playPure (pausedMidPlay s k)).array = (playPure s).array := by
  obtain ⟨arr, ps, q, cur, pl⟩ := s
  simp only [VizState.isPlaying] at hp
  simp only [VizState.currentStep] at hc
  subst hp
  subst hc
  obtain ⟨ha, hcur, hq, hpl, hps⟩ :=
    stepN_spec k (⟨arr, ps, q, 0, true⟩ : VizState) (by simpa using hk)
  simp only [List.drop_zero, Nat.zero_add] at ha hcur hq hpl hps
  have hma : (pausedMidPlay ⟨arr, ps, q, 0, false⟩ k).array = replaySteps (q.take k) arr := by
    simpa [pausedMidPlay] using ha
  have hmc : (pausedMidPlay ⟨arr, ps, q, 0, false⟩ k).currentStep = k := by
    simpa [pausedMidPlay] using hcur
  have hmq : (pausedMidPlay ⟨arr, ps, q, 0, false⟩ k).animationQueue = q := by
    simpa [pausedMidPlay] using hq
  rw [playPure_array _ (by rw [hmc, hmq]; simpa using hk), hma, hmc, hmq,
    playPure_array (⟨arr, ps, q, 0, false⟩ : VizState) (by simp)]
  simp only [List.drop_zero]
  rw [← replaySteps_append, List.take_append_drop]

/-- Witness for C8 at a concrete two-step run paused after one step. -/
theorem pause_resume_deterministic_witness :
    (⟨[2, 1], none, [Step.compare 0 1, Step.swap 0 1], 0, false⟩ : VizState).isPlaying = false ∧
      (⟨[2, 1], none, [Step.compare 0 1, Step.swap 0 1], 0, false⟩ : VizState).currentStep = 0 ∧
      1 ≤ ([Step.compare 0 1, Step.swap 0 1] : List Step).length ∧
      (playPure (pausedMidPlay ⟨[2, 1], none, [Step.compare 0 1, Step.swap 0 1], 0, false⟩ 1)).array
        = (playPure ⟨[2, 1], none, [Step.compare 0 1, Step.swap 0 1], 0, false⟩).array :=
  ⟨rfl, rfl, by decide,
    pause_resume_deterministic ⟨[2, 1], none, [Step.compare 0 1, Step.swap 0 1], 0, false⟩ 1
      rfl rfl (by decide)⟩

/-- C3 counterexample: a second `play()` invoked while the busy flag is set
is not rejected: the source's `play` has no busy check, so on a busy state
with a one-step queue it advances `currentStep` from 0 to 1. -/
theorem play_not_gated_counterexample :
    (playPure ⟨[2, 1], none, [Step.compare 0 1], 0, true⟩).currentStep = 1 ∧
      (⟨[2, 1], none, [Step.compare 0 1], 0, true⟩ : VizState).currentStep = 0 := by
  decide

/-- C3 amended: while the busy flag is set, the guarded operations `create`,
`insert`, `delete`, `prepareSort`, `generatePrefixSum` and `getRangeSum` are
rejected immediately and leave the whole state unchanged; `play` and
`stepForward` themselves carry no busy check and are kept off a busy instance
only by the UI dispatch (the play button calls `pause` while playing and the
step button checks the flag). -/
theorem gate_rejects_guarded_ops (s : VizState) (h : s.isPlaying = true) :
    (∀ sz r, createOp s sz r = s) ∧ (∀ v i, insertOp s v i = s) ∧
      (∀ i, deleteOp s i = s) ∧ (∀ t, prepareSortOp s t = s) ∧
      generatePrefixSumOp s = s ∧ (∀ lo hi, getRangeSumOp s lo hi = none) := by
  refine ⟨fun sz r => by simp [createOp, h], fun v i => by simp [insertOp, h],
    fun i => by simp [deleteOp, h], fun t => by simp [prepareSortOp, h],
    by simp [generatePrefixSumOp, h], fun lo hi => by simp [getRangeSumOp, h]⟩

/-- Witness for the amended C3 at a concrete busy state. -/
theorem gate_rejects_guarded_ops_witness :
    (⟨[2, 1], none, [], 0, true⟩ : VizState).isPlaying = true ∧
      createOp ⟨[2, 1], none, [], 0, true⟩ 3 (fun _ => 5) = ⟨[2, 1], none, [], 0, true⟩ ∧
      insertOp ⟨[2, 1], none, [], 0, true⟩ 9 0 = ⟨[2, 1], none, [], 0, true⟩ ∧
      deleteOp ⟨[2, 1], none, [], 0, true⟩ 0 = ⟨[2, 1], none, [], 0, true⟩ ∧
      prepareSortOp ⟨[2, 1], none, [], 0, true⟩ SortType.bubbleSort
        = ⟨[2, 1], none, [], 0, true⟩ ∧
      generatePrefixSumOp ⟨[2, 1], none, [], 0, true⟩ = ⟨[2, 1], none, [], 0, true⟩ ∧
      getRangeSumOp ⟨[2, 1], none, [], 0, true⟩ 0 1 = none :=
  ⟨rfl, (gate_rejects_guarded_ops _ rfl).1 3 (fun _ => 5),
    (gate_rejects_guarded_ops _ rfl).2.1 9 0, (gate_rejects_guarded_ops _ rfl).2.2.1 0,
    (gate_rejects_guarded_ops _ rfl).2.2.2.1 SortType.bubbleSort,
    (gate_rejects_guarded_ops _ rfl).2.2.2.2.1,
    (gate_rejects_guarded_ops _ rfl).2.2.2.2.2 0 1⟩

/-- C2: the code keeps a prepared-but-not-started queue across `insert` and
`delete`: after preparing bubble sort on [2, 1] and inserting 9 at index 0,
the two stale steps are still queued, and a subsequent `play()` applies them
to the new live array, mutating it; likewise `delete` leaves the queue in
place.  The spec requires the queue to be cleared so that play/step are
no-ops. -/
theorem insert_delete_keep_stale_queue :
    (insertOp (prepareSortOp ⟨[2, 1], none, [], 0, false⟩ SortType.bubbleSort) 9 0).animationQueue
        = [Step.compare 0 1, Step.swap 0 1] ∧
      (playPure (insertOp (prepareSortOp ⟨[2, 1], none, [], 0, false⟩ SortType.bubbleSort) 9 0)).array
        = [2, 9, 1] ∧
      (deleteOp (prepareSortOp ⟨[2, 1], none, [], 0, false⟩ SortType.bubbleSort) 0).animationQueue
        = [Step.compare 0 1, Step.swap 0 1] := by
  decide

/-- Test for the `compare` step kind. -/
def isCompare : Step → Bool
  | .compare _ _ => true
  | _ => false

/-- Number of `compare` steps in a step list. -/
def countCompares (l : List Step) : Nat := l.countP isCompare

@[simp] lemma countCompares_nil : countCompares [] = 0 := rfl

@[simp] lemma countCompares_cons (st : Step) (l : List Step) :
    countCompares (st :: l) = countCompares l + (if isCompare st then 1 else 0) := by
  simp [countCompares, List.countP_cons]

@[simp] lemma countCompares_append (l1 l2 : List Step) :
    countCompares (l1 ++ l2) = countCompares l1 + countCompares l2 := by
  simp [countCompares, List.countP_append]

lemma jsWrite_length : ∀ (a : List Int) (i : Nat) (v : Int),
    (jsWrite a i v).length = max a.length (i + 1)
  | [], 0, v => by simp [jsWrite]
  | [], i + 1, v => by
    simp [jsWrite, jsWrite_length [] i v]
  | x :: xs, 0, v => by simp [jsWrite]
  | x :: xs, i + 1, v => by
    simp [jsWrite, jsWrite_length xs i v]
    omega

lemma jsRead_jsWrite : ∀ (a : List Int) (i j : Nat) (v : Int),
    jsRead (jsWrite a i v) j = if j = i then v else jsRead a j
  | [], 0, 0, v => by simp [jsWrite]
  | [], 0, j + 1, v => by simp [jsWrite]
  | [], i + 1, 0, v => by simp [jsWrite]
  | [], i + 1, j + 1, v => by
    simp [jsWrite, jsRead_jsWrite [] i j v]
  | x :: xs, 0, 0, v => by simp [jsWrite]
  | x :: xs, 0, j + 1, v => by simp [jsWrite]
  | x :: xs, i + 1, 0, v => by simp [jsWrite]
  | x :: xs, i + 1, j + 1, v => by
    simp [jsWrite, jsRead_jsWrite xs i j v]

lemma jsWrite_read_self : ∀ (a : List Int) (i : Nat), i < a.length →
    jsWrite a i (jsRead a i) = a
  | [], i => by simp
  | x :: xs, 0 => by simp [jsWrite]
  | x :: xs, i + 1 => by
    intro h
    simp [jsWrite, jsWrite_read_self xs i (by simpa using h)]

/-- Adjacent elements of a non-decreasing chain, through JS reads. -/
lemma chain_le_adj : ∀ (a : List Int), List.Chain' (· ≤ ·) a →
    ∀ i, i + 1 < a.length → jsRead a i ≤ jsRead a (i + 1)
  | [] => by intro _ i h; simp at h
  | [_] => by intro _ i h; simp at h
  | x :: y :: t => by
    intro hch i h
    rw [List.chain'_cons] at hch
    cases i with
    | zero => simpa using hch.1
    | succ i =>
      have := chain_le_adj (y :: t) hch.2 i (by simpa using h)
      simpa using this

/-- The head of a strictly decreasing chain dominates every later element. -/
lemma chain_gt_head : ∀ (x : Int) (xs : List Int), List.Chain' (· > ·) (x :: xs) →
    ∀ k, k < xs.length → x > jsRead xs k
  | x, [], _ => by intro k h; simp at h
  | x, y :: t, hch => by
    intro k hk
    rw [List.chain'_cons] at hch
    cases k with
    | zero => simpa using hch.1
    | succ k =>
      have ht := chain_gt_head y t hch.2 k (by simpa using hk)
      have : x > jsRead t k := gt_trans hch.1 ht
      simpa using this

/-- Any earlier element of a strictly decreasing chain dominates any later
one, through JS reads. -/
lemma chain_gt_pairwise : ∀ (a : List Int), List.Chain' (· > ·) a →
    ∀ i j, i < j → j < a.length → jsRead a i > jsRead a j
  | [] => by intro _ i j _ h; simp at h
  | x :: t => by
    intro hch i j hij hj
    cases i with
    | zero =>
      obtain ⟨j, rfl⟩ : ∃ j', j = j' + 1 := ⟨j - 1, by omega⟩
      have := chain_gt_head x t hch j (by simpa using hj)
      simpa using this
    | succ i =>
      obtain ⟨j, rfl⟩ : ∃ j', j = j' + 1 := ⟨j - 1, by omega⟩
      have := chain_gt_pairwise t hch.tail i j (by omega) (by simpa using hj)
      simpa using this

lemma countCompares_insInner_le (m : Nat) : ∀ (a : List Int) (key : Int) (i : Nat),
    countCompares (insInner a key i m).1 ≤ m - 1 := by
  induction m with
  | zero => intro a key i; simp [insInner]
  | succ m ih =>
    intro a key i
    by_cases h : jsRead a m > key
    · have := ih (jsWrite a (m + 1) (jsRead a m)) key i
      by_cases hm : 1 ≤ m <;>
        simp [insInner, h, hm, isCompare] <;> omega
    · simp [insInner, h]

lemma insOuter_count_bounds (r : Nat) : ∀ (a : List Int) (i : Nat), 1 ≤ i →
    r ≤ countCompares (insOuter a i r).1 ∧
      2 * countCompares (insOuter a i r).1 ≤ r * (2 * i + r - 1) := by
  induction r with
  | zero => intro a i _; simp [insOuter]
  | succ r ih =>
    intro a i hi
    obtain ⟨ih1, ih2⟩ := ih
      (jsWrite (insInner a (jsRead a i) i i).2.1 (insInner a (jsRead a i) i i).2.2 (jsRead a i))
      (i + 1) (by omega)
    have hin := countCompares_insInner_le i a (jsRead a i) i
    have hc : countCompares (insOuter a i (r + 1)).1 =
        1 + countCompares (insInner a (jsRead a i) i i).1 +
          countCompares (insOuter
            (jsWrite (insInner a (jsRead a i) i i).2.1 (insInner a (jsRead a i) i i).2.2
              (jsRead a i)) (i + 1) r).1 := by
      simp [insOuter, isCompare]
      omega
    constructor
    · omega
    · rw [hc]
      have e1 : 2 * (i + 1) + r - 1 = 2 * i + r + 1 := by omega
      rw [e1] at ih2
      have e2 : (r + 1) * (2 * i + (r + 1) - 1) = 2 * i + r * (2 * i + r + 1) := by
        have h' : 2 * i + (r + 1) - 1 = 2 * i + r := by omega
        rw [h']; ring
      rw [e2]
      have hin' : countCompares (insInner a (jsRead a i) i i).1 + 1 ≤ i := by omega
      generalize r * (2 * i + r + 1) = B at ih2 ⊢
      omega

/-- One exit of the insertion-sort while loop: the left neighbour is not
strictly greater, so no shift and no further compare happens. -/
lemma insInner_exit (a : List Int) (key : Int) (idx m' : Nat) (h : ¬ jsRead a m' > key) :
    insInner a key idx (m' + 1) = ([], a, m' + 1) := by
  simp [insInner, h]

lemma insOuter_sorted (r : Nat) : ∀ (a : List Int) (i : Nat), 1 ≤ i → i + r = a.length →
    List.Chain' (· ≤ ·) a →
    countCompares (insOuter a i r).1 = r ∧ (insOuter a i r).2 = a := by
  induction r with
  | zero => intro a i _ _ _; simp [insOuter]
  | succ r ih =>
    intro a i hi hlen hch
    have hiLt : i < a.length := by omega
    have hadj : jsRead a (i - 1) ≤ jsRead a i := by
      have h' := chain_le_adj a hch (i - 1) (by omega)
      rwa [Nat.sub_add_cancel hi] at h'
    have hnot : ¬ jsRead a (i - 1) > jsRead a i := not_lt.mpr hadj
    have hinner : insInner a (jsRead a i) i i = ([], a, i) := by
      have h' := insInner_exit a (jsRead a i) i (i - 1) hnot
      rwa [Nat.sub_add_cancel hi] at h'
    obtain ⟨ihc, iha⟩ := ih a (i + 1) (by omega) (by omega) hch
    constructor
    · simp [insOuter, hinner, jsWrite_read_self a i hiLt, isCompare, ihc]
    · simp [insOuter, hinner, jsWrite_read_self a i hiLt, iha]

/-- The cumulative effect of a full run of the insertion-sort shifting loop
started at position `m`: every slot `1..m` receives the value of the slot to
its left, slot 0 and the slots past `m` are untouched. -/
def shiftAll : List Int → Nat → List Int
  | a, 0 => a
  | a, m + 1 => shiftAll (jsWrite a (m + 1) (jsRead a m)) m

lemma shiftAll_length : ∀ (m : Nat) (a : List Int), m < a.length →
    (shiftAll a m).length = a.length := by
  intro m
  induction m with
  | zero => intro a _; rfl
  | succ m ih =>
    intro a h
    have hw : (jsWrite a (m + 1) (jsRead a m)).length = a.length := by
      rw [jsWrite_length]; omega
    rw [shiftAll, ih _ (by rw [hw]; omega)]
    exact hw

lemma shiftAll_read : ∀ (m : Nat) (a : List Int) (v : Nat),
    jsRead (shiftAll a m) v =
      if v = 0 then jsRead a 0 else if v ≤ m then jsRead a (v - 1) else jsRead a v := by
  intro m
  induction m with
  | zero =>
    intro a v
    rcases Nat.eq_zero_or_pos v with h0 | h0
    · simp [shiftAll, h0]
    · have : ¬ v ≤ 0 := by omega
      simp [shiftAll, Nat.pos_iff_ne_zero.mp h0, this]
  | succ m ih =>
    intro a v
    rw [shiftAll, ih]
    rcases Nat.eq_zero_or_pos v with h0 | h0
    · simp [h0, jsRead_jsWrite]
    · have hv0 : v ≠ 0 := by omega
      by_cases hvm : v ≤ m
      · have h1 : v - 1 ≠ m + 1 := by omega
        simp [hv0, hvm, jsRead_jsWrite, h1, le_trans hvm (Nat.le_succ m)]
      · by_cases hvs : v = m + 1
        · have : v - 1 = m := by omega
          simp [hv0, hvm, hvs, jsRead_jsWrite, this]
        · have h2 : ¬ v ≤ m + 1 := by omega
          simp [hv0, hvm, hvs, h2, jsRead_jsWrite]

lemma insInner_full (m : Nat) : ∀ (a : List Int) (key : Int) (idx : Nat),
    (∀ v, v < m → jsRead a v > key) →
    countCompares (insInner a key idx m).1 = m - 1 ∧
      (insInner a key idx m).2.1 = shiftAll a m ∧
      (insInner a key idx m).2.2 = 0 := by
  induction m with
  | zero => intro a key idx _; exact ⟨rfl, rfl, rfl⟩
  | succ m ih =>
    intro a key idx hgt
    have hm := hgt m (by omega)
    have hgt' : ∀ v, v < m → jsRead (jsWrite a (m + 1) (jsRead a m)) v > key := by
      intro v hv
      rw [jsRead_jsWrite]
      have : v ≠ m + 1 := by omega
      simpa [this] using hgt v (by omega)
    obtain ⟨ihc, iha, ihp⟩ := ih (jsWrite a (m + 1) (jsRead a m)) key idx hgt'
    refine ⟨?_, by simp [insInner, hm, iha, shiftAll], by simp [insInner, hm, ihp]⟩
    by_cases h1 : 1 ≤ m <;> simp [insInner, hm, h1, isCompare, ihc] <;> omega

lemma insOuter_strictDesc (r : Nat) : ∀ (a : List Int) (i : Nat), 1 ≤ i →
    i + r = a.length →
    (∀ j k, j < i → i ≤ k → k < a.length → jsRead a j > jsRead a k) →
    (∀ k k', i ≤ k → k < k' → k' < a.length → jsRead a k > jsRead a k') →
    2 * countCompares (insOuter a i r).1 = r * (2 * i + r - 1) := by
  induction r with
  | zero => intro a i _ _ _ _; simp [insOuter]
  | succ r ih =>
    intro a i hi hlen hpre hsuf
    have hiLt : i < a.length := by omega
    have hfull : ∀ v, v < i → jsRead a v > jsRead a i := fun v hv =>
      hpre v i hv (le_refl i) hiLt
    obtain ⟨hc, ha, hp⟩ := insInner_full i a (jsRead a i) i hfull
    have hsl : (shiftAll a i).length = a.length := shiftAll_length i a hiLt
    have hread2 : ∀ v : Nat, jsRead (jsWrite (shiftAll a i) 0 (jsRead a i)) v =
        if v = 0 then jsRead a i else if v ≤ i then jsRead a (v - 1) else jsRead a v := by
      intro v
      rw [jsRead_jsWrite, shiftAll_read]
      rcases Nat.eq_zero_or_pos v with h0 | h0
      · simp [h0]
      · simp [Nat.pos_iff_ne_zero.mp h0]
    have hlen2 : (jsWrite (shiftAll a i) 0 (jsRead a i)).length = a.length := by
      rw [jsWrite_length, hsl]; omega
    have hpre' : ∀ j k, j < i + 1 → i + 1 ≤ k →
        k < (jsWrite (shiftAll a i) 0 (jsRead a i)).length →
        jsRead (jsWrite (shiftAll a i) 0 (jsRead a i)) j >
          jsRead (jsWrite (shiftAll a i) 0 (jsRead a i)) k := by
      intro j k hj hk hkLt
      rw [hlen2] at hkLt
      have hkk : jsRead (jsWrite (shiftAll a i) 0 (jsRead a i)) k = jsRead a k := by
        rw [hread2]
        have h1 : k ≠ 0 := by omega
        have h2 : ¬ k ≤ i := by omega
        simp [h1, h2]
      rw [hkk, hread2]
      rcases Nat.eq_zero_or_pos j with h0 | h0
      · simpa [h0] using hsuf i k (le_refl i) (by omega) hkLt
      · have h1 : j ≠ 0 := by omega
        have h2 : j ≤ i := by omega
        simp only [h1, if_false, h2, if_true]
        exact hpre (j - 1) k (by omega) (by omega) hkLt
    have hsuf' : ∀ k k', i + 1 ≤ k → k < k' →
        k' < (jsWrite (shiftAll a i) 0 (jsRead a i)).length →
        jsRead (jsWrite (shiftAll a i) 0 (jsRead a i)) k >
          jsRead (jsWrite (shiftAll a i) 0 (jsRead a i)) k' := by
      intro k k' hk hkk' hk'
      rw [hlen2] at hk'
      have e : ∀ x : Nat, i + 1 ≤ x → x < a.length →
          jsRead (jsWrite (shiftAll a i) 0 (jsRead a i)) x = jsRead a x := by
        intro x hx _
        rw [hread2]
        have h1 : x ≠ 0 := by omega
        have h2 : ¬ x ≤ i := by omega
        simp [h1, h2]
      rw [e k hk (by omega), e k' (by omega) hk']
      exact hsuf k k' (by omega) hkk' hk'
    have ihr := ih (jsWrite (shiftAll a i) 0 (jsRead a i)) (i + 1) (by omega)
      (by rw [hlen2]; omega) hpre' hsuf'
    have hcount : countCompares (insOuter a i (r + 1)).1 =
        1 + (i - 1) +
          countCompares (insOuter (jsWrite (shiftAll a i) 0 (jsRead a i)) (i + 1) r).1 := by
      simp [insOuter, isCompare, hc, ha, hp]
      omega
    rw [hcount]
    have e1 : 2 * (i + 1) + r - 1 = 2 * i + r + 1 := by omega
    rw [e1] at ihr
    have e2 : (r + 1) * (2 * i + (r + 1) - 1) = 2 * i + r * (2 * i + r + 1) := by
      have h' : 2 * i + (r + 1) - 1 = 2 * i + r := by omega
      rw [h']; ring
    rw [e2]
    generalize r * (2 * i + r + 1) = B at ihr ⊢
    omega

/-- C5: for every input of length n at least 2, the insertion-sort step
producer emits between n-1 and n(n-1)/2 compare steps; the lower bound is
attained on non-decreasing input and the upper bound on strictly decreasing
input. -/
theorem insertion_compare_bounds (a : List Int) (h : 2 ≤ a.length) :
    (a.length - 1 ≤ countCompares (generateInsertionSortSteps a) ∧
      countCompares (generateInsertionSortSteps a) ≤ a.length * (a.length - 1) / 2) ∧
      (List.Chain' (· ≤ ·) a →
        countCompares (generateInsertionSortSteps a) = a.length - 1) ∧
      (List.Chain' (· > ·) a →
        countCompares (generateInsertionSortSteps a) = a.length * (a.length - 1) / 2) := by
  refine ⟨⟨?_, ?_⟩, ?_, ?_⟩
  · exact (insOuter_count_bounds (a.length - 1) a 1 (le_refl 1)).1
  · have hub := (insOuter_count_bounds (a.length - 1) a 1 (le_refl 1)).2
    have e : (a.length - 1) * (2 * 1 + (a.length - 1) - 1) = a.length * (a.length - 1) := by
      have h' : 2 * 1 + (a.length - 1) - 1 = a.length := by omega
      rw [h', Nat.mul_comm]
    rw [e] at hub
    show countCompares (insOuter a 1 (a.length - 1)).1 ≤ a.length * (a.length - 1) / 2
    generalize hB : a.length * (a.length - 1) = B at hub ⊢
    omega
  · intro hch
    exact (insOuter_sorted (a.length - 1) a 1 (le_refl 1) (by omega) hch).1
  · intro hch
    have hd := insOuter_strictDesc (a.length - 1) a 1 (le_refl 1) (by omega)
      (fun j k hj hk hkLt => by
        have hj0 : j = 0 := by omega
        exact hj0 ▸ chain_gt_pairwise a hch 0 k (by omega) hkLt)
      (fun k k' hk hkk' hk' => chain_gt_pairwise a hch k k' hkk' hk')
    have e : (a.length - 1) * (2 * 1 + (a.length - 1) - 1) = a.length * (a.length - 1) := by
      have h' : 2 * 1 + (a.length - 1) - 1 = a.length := by omega
      rw [h', Nat.mul_comm]
    rw [e] at hd
    show countCompares (insOuter a 1 (a.length - 1)).1 = a.length * (a.length - 1) / 2
    generalize hB : a.length * (a.length - 1) = B at hd ⊢
    omega

/-- Witness for C5 at the concrete strictly decreasing input [2, 1]. -/
theorem insertion_compare_bounds_witness :
    2 ≤ ([2, 1] : List Int).length ∧
      (([2, 1] : List Int).length - 1 ≤ countCompares (generateInsertionSortSteps [2, 1]) ∧
        countCompares (generateInsertionSortSteps [2, 1]) ≤
          ([2, 1] : List Int).length * (([2, 1] : List Int).length - 1) / 2) ∧
      (List.Chain' (· ≤ ·) ([2, 1] : List Int) →
        countCompares (generateInsertionSortSteps [2, 1]) = ([2, 1] : List Int).length - 1) ∧
      (List.Chain' (· > ·) ([2, 1] : List Int) →
        countCompares (generateInsertionSortSteps [2, 1]) =
          ([2, 1] : List Int).length * (([2, 1] : List Int).length - 1) / 2) :=
  ⟨by decide, (insertion_compare_bounds [2, 1] (by decide)).1,
    (insertion_compare_bounds [2, 1] (by decide)).2.1,
    (insertion_compare_bounds [2, 1] (by decide)).2.2⟩

example : countCompares (generateInsertionSortSteps [1, 2, 3, 4]) = 3 := by decide

example : countCompares (generateInsertionSortSteps [4, 3, 2, 1]) = 6 := by decide

example : countCompares (generateInsertionSortSteps [2, 3, 1, 4]) = 4 := by decide

/-- Sum of the live array's elements at indices 0 through i. -/
def sumTo (a : List Int) (i : Nat) : Int := (a.take (i + 1)).sum

/-- The prefix-sum relation of the claim: same length as the live array and
entry i equal to the sum of elements 0 through i. -/
def PSRel (a ps : List Int) : Prop :=
  ps.length = a.length ∧ ∀ i, i < ps.length → jsRead ps i = sumTo a i

/-- The claimed invariant: whenever `prefixSumArray` is non-null it stands in
the prefix-sum relation to the live array. -/
def PSInv (s : VizState) : Prop := ∀ ps, s.prefixSumArray = some ps → PSRel s.array ps

lemma prefixAccum_length : ∀ (a : List Int) (c : Int), (prefixAccum c a).length = a.length
  | [], _ => rfl
  | x :: xs, c => by simp [prefixAccum, prefixAccum_length xs (c + x)]

lemma prefixAccum_read : ∀ (a : List Int) (c : Int) (i : Nat), i < a.length →
    jsRead (prefixAccum c a) i = c + sumTo a i
  | [], _, i => by intro h; simp at h
  | x :: xs, c, 0 => by intro _; simp [prefixAccum, sumTo]
  | x :: xs, c, i + 1 => by
    intro h
    have := prefixAccum_read xs (c + x) i (by simpa using h)
    simp [prefixAccum, sumTo, List.take_succ_cons] at this ⊢
    rw [this]
    ring

/-- The array stored by `generatePrefixSum` satisfies the prefix-sum
relation. -/
lemma prefixSums_PSRel (a : List Int) : PSRel a (prefixSums a) := by
  refine ⟨prefixAccum_length a 0, fun i hi => ?_⟩
  rw [prefixSums, prefixAccum_length] at hi
  have := prefixAccum_read a 0 i hi
  simpa [prefixSums] using this

instance PSRel.decidable (a ps : List Int) : Decidable (PSRel a ps) := by
  unfold PSRel
  infer_instance

/-- Telescoping of prefix sums into a range sum. -/
lemma sumTo_range (a : List Int) (i j : Nat) (hij : i ≤ j) :
    sumTo a j - (if 0 < i then sumTo a (i - 1) else 0) = ((a.take (j + 1)).drop i).sum := by
  rcases Nat.eq_zero_or_pos i with h0 | h0
  · simp [h0, sumTo]
  · have hpos : 0 < i := h0
    have hi1 : i - 1 + 1 = i := by omega
    have hsplit := List.sum_take_add_sum_drop (a.take (j + 1)) i
    have htt : (a.take (j + 1)).take i = a.take i := by
      rw [List.take_take]
      congr 1
      omega
    rw [htt] at hsplit
    simp only [hpos, if_true, sumTo, hi1]
    omega

/-- C9 amended: the prefix-sum relation is an invariant of `create`,
`insert`, `delete` and `prepareSort` (each rejects or resets the prefix-sum
array to null), is established by `generatePrefixSum`, and under it
`getRangeSum(start, end)` with valid bounds returns exactly the sum of the
live array's elements from start to end.  `stepForward`/`play` are not in
this list: they mutate the live array while leaving a stale non-null
prefix-sum array in place. -/
theorem prefix_sum_invariant (s : VizState) (hinv : PSInv s) :
    (∀ sz r, PSInv (createOp s sz r)) ∧ (∀ v i, PSInv (insertOp s v i)) ∧
      (∀ i, PSInv (deleteOp s i)) ∧ (∀ t, PSInv (prepareSortOp s t)) ∧
      PSInv (generatePrefixSumOp s) ∧
      (∀ ps lo hi, s.prefixSumArray = some ps → s.isPlaying = false →
        0 ≤ lo → lo ≤ hi → hi < (s.array.length : Int) →
        getRangeSumOp s lo hi = some (((s.array.take (hi.toNat + 1)).drop lo.toNat).sum)) := by
  refine ⟨?_, ?_, ?_, ?_, ?_, ?_⟩
  · intro sz r
    by_cases h1 : s.isPlaying
    · simpa [createOp, h1] using hinv
    · by_cases h2 : sz ≤ 0 ∨ 15 < sz
      · simpa [createOp, h1, h2] using hinv
      · intro ps hps
        simp [createOp, h1, h2] at hps
  · intro v i
    by_cases h1 : s.isPlaying = true ∨ i < 0 ∨ (s.array.length : Int) < i ∨
        15 ≤ s.array.length
    · simpa [insertOp, h1] using hinv
    · intro ps hps
      simp [insertOp, h1] at hps
  · intro i
    by_cases h1 : s.isPlaying = true ∨ i < 0 ∨ (s.array.length : Int) ≤ i
    · simpa [deleteOp, h1] using hinv
    · intro ps hps
      simp [deleteOp, h1] at hps
  · intro t
    by_cases h1 : s.isPlaying = true ∨ s.array.length ≤ 1
    · simpa [prepareSortOp, h1] using hinv
    · intro ps hps
      simp [prepareSortOp, h1] at hps
  · unfold PSInv generatePrefixSumOp
    by_cases h1 : s.isPlaying = true ∨ s.array.length = 0
    · rw [if_pos h1]
      exact hinv
    · rw [if_neg h1]
      intro ps hps
      simp only [Option.some.injEq] at hps
      exact hps ▸ prefixSums_PSRel s.array
  · intro ps lo hi hps hpl hlo hlohi hhi
    obtain ⟨hlen, hread⟩ := hinv ps hps
    have hguard : ¬ (lo < 0 ∨ (s.array.length : Int) ≤ hi ∨ hi < lo) := by omega
    have hhiN : hi.toNat < s.array.length := by omega
    have hr1 : jsRead ps hi.toNat = sumTo s.array hi.toNat :=
      hread hi.toNat (by omega)
    have hite : (if 0 < lo then jsRead ps (lo.toNat - 1) else 0)
        = (if 0 < lo.toNat then sumTo s.array (lo.toNat - 1) else 0) := by
      by_cases hl : 0 < lo
      · have hl' : 0 < lo.toNat := by omega
        rw [if_pos hl, if_pos hl', hread (lo.toNat - 1) (by omega)]
      · have hl' : ¬ 0 < lo.toNat := by omega
        rw [if_neg hl, if_neg hl']
    rw [getRangeSumOp, if_neg (by simp [hpl]), hps]
    simp only [hguard, if_false, hr1, hite]
    rw [sumTo_range s.array lo.toNat hi.toNat (by omega)]

/-- Witness for the amended C9 at a concrete valid state. -/
theorem prefix_sum_invariant_witness :
    PSInv ⟨[2, 1], some [2, 3], [], 0, false⟩ ∧
      getRangeSumOp ⟨[2, 1], some [2, 3], [], 0, false⟩ 0 1 =
        some ((([2, 1] : List Int).take ((1 : Int).toNat + 1)).drop (0 : Int).toNat).sum := by
  have hinv : PSInv ⟨[2, 1], some [2, 3], [], 0, false⟩ := by
    intro ps hps
    simp only [VizState.prefixSumArray, Option.some.injEq] at hps
    rw [← hps]
    decide
  exact ⟨hinv, (prefix_sum_invariant _ hinv).2.2.2.2.2 [2, 3] 0 1 rfl rfl
    (by decide) (by decide) (by decide)⟩

/-- C9 counterexample: a reachable state (create [2,1], prepare bubble sort,
generate the prefix sums, then step twice) has a non-null stale
`prefixSumArray` [2,3] against live array [1,2]: the relation fails and
`getRangeSum(0,0)` answers 2 although the live element sum is 1. -/
theorem prefix_sum_stale_counterexample :
    (runOps initState
        [Op.create 2 (fun n => if n = 0 then 2 else 1), Op.prepare SortType.bubbleSort,
         Op.genPrefixSum, Op.step, Op.step]).prefixSumArray = some [2, 3] ∧
      (runOps initState
        [Op.create 2 (fun n => if n = 0 then 2 else 1), Op.prepare SortType.bubbleSort,
         Op.genPrefixSum, Op.step, Op.step]).array = [1, 2] ∧
      ¬ PSRel
        (runOps initState
          [Op.create 2 (fun n => if n = 0 then 2 else 1), Op.prepare SortType.bubbleSort,
           Op.genPrefixSum, Op.step, Op.step]).array [2, 3] ∧
      getRangeSumOp
        (runOps initState
          [Op.create 2 (fun n => if n = 0 then 2 else 1), Op.prepare SortType.bubbleSort,
           Op.genPrefixSum, Op.step, Op.step]) 0 0 = some 2 ∧
      ((([1, 2] : List Int).take 1).drop 0).sum = 1 := by
  refine ⟨by decide, by decide, by decide, by decide, by decide⟩

/-- One more than the largest index a step writes to (0 for `compare`, which
writes nothing): an upper bound on the length a JS write of this step can
force. -/
def stepWriteBound : Step → Nat
  | .compare _ _ => 0
  | .swap i j => max i j + 1
  | .shift _ d => d + 1
  | .ins idx _ => idx + 1

/-- All steps of a queue write below index `n`. -/
def QueueBounded (q : List Step) (n : Nat) : Prop := ∀ st ∈ q, stepWriteBound st ≤ n

/-- The size invariant: the live array holds at most 15 elements and every
queued step writes below index 15. -/
def SizeInv (s : VizState) : Prop :=
  s.array.length ≤ 15 ∧ QueueBounded s.animationQueue 15

lemma applyStepJS_length (a : List Int) (st : Step) :
    (applyStepJS a st).length ≤ max a.length (stepWriteBound st) := by
  cases st with
  | compare i j => simp [applyStepJS, stepWriteBound]
  | swap i j =>
    simp only [applyStepJS, swapL, stepWriteBound]
    rw [jsWrite_length, jsWrite_length]
    omega
  | shift src dst =>
    simp only [applyStepJS, stepWriteBound]
    rw [jsWrite_length]
  | ins idx v =>
    simp only [applyStepJS, stepWriteBound]
    rw [jsWrite_length]

lemma bubbleInner_bound (k : Nat) : ∀ (a : List Int) (j : Nat) (st : Step),
    st ∈ (bubbleInner a j k).1 → stepWriteBound st ≤ j + k + 1 := by
  induction k with
  | zero => intro a j st h; simp [bubbleInner] at h
  | succ k ih =>
    intro a j st h
    by_cases hc : jsRead a j > jsRead a (j + 1)
    · simp [bubbleInner, hc] at h
      rcases h with h | h | h
      · rw [h]; simp [stepWriteBound]
      · rw [h]; simp [stepWriteBound]
      · have := ih (swapL a j (j + 1)) (j + 1) st h
        omega
    · simp [bubbleInner, hc] at h
      rcases h with h | h
      · rw [h]; simp [stepWriteBound]
      · have := ih a (j + 1) st h
        omega

lemma bubbleOuter_bound (m : Nat) : ∀ (a : List Int) (st : Step),
    st ∈ (bubbleOuter a m).1 → stepWriteBound st ≤ m + 1 := by
  induction m with
  | zero => intro a st h; simp [bubbleOuter] at h
  | succ m ih =>
    intro a st h
    simp [bubbleOuter] at h
    rcases h with h | h
    · have := bubbleInner_bound (m + 1) a 0 st h
      omega
    · have := ih (bubbleInner a 0 (m + 1)).2 st h
      omega

lemma selInner_steps_bound (k : Nat) : ∀ (a : List Int) (j m : Nat) (st : Step),
    st ∈ (selInner a j m k).1 → stepWriteBound st = 0 := by
  induction k with
  | zero => intro a j m st h; simp [selInner] at h
  | succ k ih =>
    intro a j m st h
    simp [selInner] at h
    rcases h with h | h
    · rw [h]; rfl
    · exact ih a (j + 1) (if jsRead a j < jsRead a m then j else m) st h

lemma selInner_snd_le (k : Nat) : ∀ (a : List Int) (j m : Nat),
    (selInner a j m k).2 ≤ max m (j + k - 1) := by
  induction k with
  | zero => intro a j m; simp [selInner]
  | succ k ih =>
    intro a j m
    have := ih a (j + 1) (if jsRead a j < jsRead a m then j else m)
    have hm' : (if jsRead a j < jsRead a m then j else m) ≤ max m j := by
      split <;> omega
    simp only [selInner]
    omega

lemma selOuter_bound (r : Nat) : ∀ (a : List Int) (i : Nat) (st : Step),
    st ∈ (selOuter a i r).1 → stepWriteBound st ≤ i + r + 1 := by
  induction r with
  | zero => intro a i st h; simp [selOuter] at h
  | succ r ih =>
    intro a i st h
    have hmin := selInner_snd_le (r + 1) a (i + 1) i
    by_cases hne : (selInner a (i + 1) i (r + 1)).2 ≠ i
    · simp [selOuter, hne] at h
      rcases h with h | h | h
      · rw [selInner_steps_bound (r + 1) a (i + 1) i st h]; omega
      · rw [h]; simp [stepWriteBound]; omega
      · have := ih (swapL a i (selInner a (i + 1) i (r + 1)).2) (i + 1) st h
        omega
    · simp [selOuter, hne] at h
      rcases h with h | h
      · rw [selInner_steps_bound (r + 1) a (i + 1) i st h]; omega
      · have := ih a (i + 1) st h
        omega

lemma insInner_steps_bound (m : Nat) : ∀ (a : List Int) (key : Int) (i : Nat) (st : Step),
    st ∈ (insInner a key i m).1 → stepWriteBound st ≤ m + 1 := by
  induction m with
  | zero => intro a key i st h; simp [insInner] at h
  | succ m ih =>
    intro a key i st h
    by_cases hc : jsRead a m > key
    · by_cases h1 : 1 ≤ m <;> simp [insInner, hc, h1] at h
      · rcases h with h | h | h
        · rw [h]; simp [stepWriteBound]
        · rw [h]; simp [stepWriteBound]
        · have := ih (jsWrite a (m + 1) (jsRead a m)) key i st h
          omega
      · rcases h with h | h
        · rw [h]; simp [stepWriteBound]
        · have := ih (jsWrite a (m + 1) (jsRead a m)) key i st h
          omega
    · simp [insInner, hc] at h

lemma insInner_pos_le (m : Nat) : ∀ (a : List Int) (key : Int) (i : Nat),
    (insInner a key i m).2.2 ≤ m := by
  induction m with
  | zero => intro a key i; simp [insInner]
  | succ m ih =>
    intro a key i
    by_cases hc : jsRead a m > key
    · have := ih (jsWrite a (m + 1) (jsRead a m)) key i
      simp [insInner, hc]
      omega
    · simp [insInner, hc]

lemma insOuter_bound (r : Nat) : ∀ (a : List Int) (i : Nat) (st : Step),
    st ∈ (insOuter a i r).1 → stepWriteBound st ≤ i + r := by
  induction r with
  | zero => intro a i st h; simp [insOuter] at h
  | succ r ih =>
    intro a i st h
    simp [insOuter] at h
    rcases h with h | h | h | h
    · rw [h]; simp [stepWriteBound]
    · have := insInner_steps_bound i a (jsRead a i) i st h
      omega
    · rw [h]
      have := insInner_pos_le i a (jsRead a i) i
      simp [stepWriteBound]
      omega
    · have := ih (jsWrite (insInner a (jsRead a i) i i).2.1
        (insInner a (jsRead a i) i i).2.2 (jsRead a i)) (i + 1) st h
      omega

/-- Every step a generator records writes below the length of the array the
run was prepared from. -/
lemma sortSteps_bound (t : SortType) (a : List Int) :
    QueueBounded (sortSteps t a) a.length := by
  intro st h
  rcases Nat.eq_zero_or_pos a.length with h0 | h0
  · cases t <;>
      simp [sortSteps, generateBubbleSortSteps, generateSelectionSortSteps,
        generateInsertionSortSteps, h0, bubbleOuter, selOuter, insOuter] at h
  · cases t
    · have := bubbleOuter_bound (a.length - 1) a st h
      omega
    · have := selOuter_bound (a.length - 1) a 0 st h
      omega
    · have := insOuter_bound (a.length - 1) a 1 st h
      omega

lemma length_eraseIdx_le : ∀ (l : List Int) (i : Nat), (l.eraseIdx i).length ≤ l.length
  | [], _ => by simp
  | _ :: xs, 0 => by simp [List.eraseIdx]
  | x :: xs, i + 1 => by
    simpa [List.eraseIdx] using length_eraseIdx_le xs i

lemma sizeInv_stepForward (s : VizState) (h : SizeInv s) : SizeInv (stepForwardPure s) := by
  obtain ⟨hlen, hq⟩ := h
  by_cases hc : s.animationQueue.length ≤ s.currentStep
  · unfold stepForwardPure
    rw [if_pos hc]
    exact ⟨hlen, hq⟩
  · have hlt : s.currentStep < s.animationQueue.length := by omega
    have hmem : s.animationQueue.getD s.currentStep (Step.compare 0 0) ∈ s.animationQueue := by
      rw [List.getD_eq_getElem _ _ hlt]
      exact List.getElem_mem hlt
    have hb := hq _ hmem
    have ha := applyStepJS_length s.array
      (s.animationQueue.getD s.currentStep (Step.compare 0 0))
    unfold stepForwardPure
    rw [if_neg hc]
    exact ⟨le_trans ha (max_le hlen hb), hq⟩

lemma sizeInv_stepN (k : Nat) : ∀ s : VizState, SizeInv s → SizeInv (stepN s k) := by
  induction k with
  | zero => intro s h; exact h
  | succ k ih => intro s h; exact ih _ (sizeInv_stepForward s h)

lemma sizeInv_applyOp (s : VizState) (op : Op) (h : SizeInv s) : SizeInv (applyOp s op) := by
  obtain ⟨hlen, hq⟩ := h
  cases op with
  | create sz r =>
    by_cases h1 : s.isPlaying
    · simpa [applyOp, createOp, h1] using ⟨hlen, hq⟩
    · by_cases h2 : sz ≤ 0 ∨ 15 < sz
      · simpa [applyOp, createOp, h1, h2] using ⟨hlen, hq⟩
      · refine ⟨?_, by simpa [applyOp, createOp, h1, h2] using hq⟩
        simp [applyOp, createOp, h1, h2]
        omega
  | insert v i =>
    by_cases h1 : s.isPlaying = true ∨ i < 0 ∨ (s.array.length : Int) < i ∨
        15 ≤ s.array.length
    · simpa [applyOp, insertOp, h1] using ⟨hlen, hq⟩
    · refine ⟨?_, by simpa [applyOp, insertOp, h1] using hq⟩
      have hle : i.toNat ≤ s.array.length := by omega
      have h15 : s.array.length < 15 := by omega
      simp [applyOp, insertOp, h1, List.length_insertIdx i.toNat s.array hle]
      omega
  | del i =>
    by_cases h1 : s.isPlaying = true ∨ i < 0 ∨ (s.array.length : Int) ≤ i
    · simpa [applyOp, deleteOp, h1] using ⟨hlen, hq⟩
    · refine ⟨?_, by simpa [applyOp, deleteOp, h1] using hq⟩
      have := length_eraseIdx_le s.array i.toNat
      simp [applyOp, deleteOp, h1]
      omega
  | prepare t =>
    by_cases h1 : s.isPlaying = true ∨ s.array.length ≤ 1
    · simpa [applyOp, prepareSortOp, h1] using ⟨hlen, hq⟩
    · refine ⟨by simpa [applyOp, prepareSortOp, h1] using hlen, ?_⟩
      have hb := sortSteps_bound t s.array
      intro st hst
      simp [applyOp, prepareSortOp, h1] at hst
      exact le_trans (hb st hst) hlen
  | genPrefixSum =>
    show SizeInv (generatePrefixSumOp s)
    unfold generatePrefixSumOp
    by_cases h1 : s.isPlaying = true ∨ s.array.length = 0
    · rw [if_pos h1]; exact ⟨hlen, hq⟩
    · rw [if_neg h1]; exact ⟨hlen, hq⟩
  | rangeSum lo hi => exact ⟨hlen, hq⟩
  | step => exact sizeInv_stepForward s ⟨hlen, hq⟩
  | playAll =>
    by_cases h1 : s.animationQueue.length = 0
    · simpa [applyOp, playPure, h1] using ⟨hlen, hq⟩
    · have hsn := sizeInv_stepN (s.animationQueue.length - s.currentStep)
        { s with isPlaying := true } ⟨by simpa using hlen, by simpa using hq⟩
      obtain ⟨ha, hb⟩ := hsn
      simp only [applyOp, playPure, h1, if_false]
      by_cases h2 : (stepN { s with isPlaying := true }
          (s.animationQueue.length - s.currentStep)).isPlaying
      · simp only [h2, if_true]
        exact ⟨by simpa using ha, by simpa using hb⟩
      · simp only [h2, if_false]
        exact ⟨ha, hb⟩
  | pauseBtn => exact ⟨by simpa [applyOp, pauseOp] using hlen, by simpa [applyOp, pauseOp] using hq⟩

lemma sizeInv_runOps : ∀ (ops : List Op) (s : VizState), SizeInv s → SizeInv (runOps s ops)
  | [], s, h => h
  | op :: ops, s, h => by
    have := sizeInv_runOps ops (applyOp s op) (sizeInv_applyOp s op h)
    simpa [runOps] using this

/-- C10 amended: starting from the constructor state, the live array's length
never exceeds 15 under any sequence of public operations; `create` installs
an array only for requested sizes 1 through 15 and rejects all other sizes
with the state unchanged; `insert` refuses when the array already holds 15
elements; `delete` and prefix-sum generation never increase the length.
(Sort playback, by contrast, can increase the length when replaying a queue
made stale by a delete, though never beyond 15.) -/
theorem array_length_at_most_15 :
    (∀ ops : List Op, (runOps initState ops).array.length ≤ 15) ∧
      (∀ (s : VizState) (sz : Int) (r : Nat → Int), sz ≤ 0 ∨ 15 < sz → createOp s sz r = s) ∧
      (∀ (s : VizState) (sz : Int) (r : Nat → Int), s.isPlaying = false → 0 < sz → sz ≤ 15 →
        (createOp s sz r).array.length = sz.toNat) ∧
      (∀ (s : VizState) (v i : Int), 15 ≤ s.array.length → insertOp s v i = s) ∧
      (∀ (s : VizState) (i : Int), (deleteOp s i).array.length ≤ s.array.length) ∧
      (∀ s : VizState, (generatePrefixSumOp s).array.length = s.array.length) := by
  refine ⟨?_, ?_, ?_, ?_, ?_, ?_⟩
  · intro ops
    exact (sizeInv_runOps ops initState ⟨by simp [initState], by intro st h; simp [initState] at h⟩).1
  · intro s sz r hsz
    by_cases h1 : s.isPlaying <;> simp [createOp, h1, hsz]
  · intro s sz r h1 h2 h3
    have hg : ¬ (sz ≤ 0 ∨ 15 < sz) := by omega
    simp [createOp, h1, hg]
  · intro s v i h15
    by_cases h1 : s.isPlaying = true ∨ i < 0 ∨ (s.array.length : Int) < i ∨
        15 ≤ s.array.length
    · simp [insertOp, h1]
    · omega
  · intro s i
    by_cases h1 : s.isPlaying = true ∨ i < 0 ∨ (s.array.length : Int) ≤ i
    · simp [deleteOp, h1]
    · have := length_eraseIdx_le s.array i.toNat
      simp [deleteOp, h1]
      omega
  · intro s
    unfold generatePrefixSumOp
    by_cases h1 : s.isPlaying = true ∨ s.array.length = 0
    · rw [if_pos h1]
    · rw [if_neg h1]

/-- Witness for the amended C10 at concrete inputs. -/
theorem array_length_at_most_15_witness :
    (runOps initState [Op.create 3 (fun _ => 7), Op.insert 5 0]).array.length ≤ 15 ∧
      createOp initState 20 (fun _ => 7) = initState ∧
      (createOp initState 3 (fun _ => 7)).array.length = (3 : Int).toNat ∧
      insertOp ⟨[1, 2, 3, 4, 5, 6, 7, 8, 9, 10, 11, 12, 13, 14, 15], none, [], 0, false⟩ 9 0
        = ⟨[1, 2, 3, 4, 5, 6, 7, 8, 9, 10, 11, 12, 13, 14, 15], none, [], 0, false⟩ ∧
      (deleteOp ⟨[1, 2], none, [], 0, false⟩ 0).array.length ≤ 2 ∧
      (generatePrefixSumOp ⟨[1, 2], none, [], 0, false⟩).array.length = 2 :=
  ⟨array_length_at_most_15.1 [Op.create 3 (fun _ => 7), Op.insert 5 0],
    array_length_at_most_15.2.1 initState 20 (fun _ => 7) (by omega),
    array_length_at_most_15.2.2.1 initState 3 (fun _ => 7) rfl (by omega) (by omega),
    array_length_at_most_15.2.2.2.1 _ 9 0 (by decide),
    array_length_at_most_15.2.2.2.2.1 _ 0,
    array_length_at_most_15.2.2.2.2.2 _⟩

/-- C10 counterexample: sort playback is not length-preserving on the code:
after create [2,1], prepare bubble sort, delete index 1, the stale Swap(0,1)
replayed by the second `stepForward` grows the live array from length 1 to
length 2 (a JS write past the end extends the array). -/
theorem playback_grows_array_counterexample :
    (runOps initState
        [Op.create 2 (fun n => if n = 0 then 2 else 1), Op.prepare SortType.bubbleSort,
         Op.del 1, Op.step]).array.length = 1 ∧
      (runOps initState
        [Op.create 2 (fun n => if n = 0 then 2 else 1), Op.prepare SortType.bubbleSort,
         Op.del 1, Op.step, Op.step]).array.length = 2 := by
  exact ⟨by decide, by decide⟩

end ArrayViz
